import Mathlib

/-!
Shallow embedding of the pareto-scripts vault price backfill core:
the RPC provider pool with retry/failover (lib/provider.js), transient
error classification (lib/utils.js with lib/config.js), block/time and
deployment binary searches (lib/provider.js), price source discovery
(lib/discovery.js) and the backfill sampling loop and summary
(scripts/backfill-price.js, version with delta column).

Network effects are abstracted as pure oracles: a task behavior maps an
(endpoint index, attempt number) pair to an outcome, chain state maps a
block number to a timestamp, a price and bytecode presence, and probes
are boolean oracles. JavaScript loops become fueled recursions whose
fuel equals the loop variant, so every definition is executable.
-/

namespace Backfill

/-- Character list version of JavaScript startsWith: the first list read
at the beginning of the second. -/
def listStarts : List Char → List Char → Bool
  | [], _ => true
  | _ :: _, [] => false
  | p :: ps, c :: cs => p == c && listStarts ps cs

/-- Whether the pattern occurs as a contiguous run inside the list. -/
def listInside (p : List Char) : List Char → Bool
  | [] => listStarts p []
  | c :: cs => listStarts p (c :: cs) || listInside p cs

/-- JavaScript String.prototype.includes, substring containment. -/
def jsIncludes (s pat : String) : Bool := listInside pat.toList s.toList

/-- JavaScript toLowerCase, character-wise as the library String.toLower
but written over the character list so that it evaluates by reduction. -/
def jsToLower (s : String) : String := String.mk (s.toList.map Char.toLower)

/-- JavaScript toUpperCase, character-wise. -/
def jsToUpper (s : String) : String := String.mk (s.toList.map Char.toUpper)

/-- Case-insensitive substring containment, both sides lowercased. -/
def containsCI (s pat : String) : Bool := jsIncludes (jsToLower s) (jsToLower pat)

/-- RETRIABLE_ERROR_PATTERNS from lib/config.js (all lowercase). -/
def RETRIABLE_ERROR_PATTERNS : List String :=
  ["503", "500", "timeout", "temporar", "overflow", "cannot fulfill request",
   "server response", "free tier", "rate limit", "request limit",
   "too many requests", "historical state", "not available"]

/-- PRICE_FUNCTIONS.standard from lib/config.js. -/
def PRICE_FUNCTIONS_standard : List String :=
  ["priceAA", "priceBB", "price", "tokenPrice", "tranchePrice",
   "pricePerShare", "getPricePerFullShare"]

/-- PRICE_FUNCTIONS.AA from lib/config.js. -/
def PRICE_FUNCTIONS_AA : List String :=
  ["priceAA", "priceBB", "price", "tokenPrice", "tranchePrice",
   "pricePerShare", "getPricePerFullShare"]

/-- PRICE_FUNCTIONS.BB from lib/config.js. -/
def PRICE_FUNCTIONS_BB : List String :=
  ["priceBB", "priceAA", "price", "tokenPrice", "tranchePrice",
   "pricePerShare", "getPricePerFullShare"]

/-- Error shape read by isRetriableRpcError in lib/utils.js: the optional
shortMessage, message and info.error.message fields of a thrown error. -/
structure RpcErr where
  shortMessage : Option String
  message : Option String
  infoMessage : Option String
deriving DecidableEq

/-- The template literal joining the three message fields with spaces,
missing fields contributing the empty string. -/
def errText (e : RpcErr) : String :=
  e.shortMessage.getD "" ++ " " ++ e.message.getD "" ++ " " ++ e.infoMessage.getD ""

/-- isRetriableRpcError from lib/utils.js: lowercase the combined message
text and test each fixed pattern for containment. -/
def isRetriableRpcError (e : RpcErr) : Bool :=
  RETRIABLE_ERROR_PATTERNS.any (fun p => jsIncludes (jsToLower (errText e)) p)

/-- The possible failure results of rpcCall: the pool was never
initialized, the generic all-providers-failed error thrown when no task
error was recorded, or a propagated task error. -/
inductive PoolError where
  | notInitialized
  | allFailed
  | rpc (e : RpcErr)
deriving DecidableEq

/-- Result of the per-endpoint retry loop inside rpcCall. -/
inductive EndpointResult (α : Type) where
  | success (v : α)
  | exhausted (lastErr : Option RpcErr)
  | fatal (e : RpcErr)

/-- The value rpcCall leaves behind: its result, the cursor after the
call, and the list of (endpoint index, attempt number) task executions
in order. -/
structure RpcOutcome (α : Type) where
  result : Except PoolError α
  cursor : Nat
  trace : List (Nat × Nat)

/-- Inner attempt loop of rpcCall on one endpoint: run the task up to the
remaining number of attempts, retrying only retriable errors, recording
the last error seen and every execution. -/
def runAttempts (beh : Nat → Nat → Except RpcErr α) (idx : Nat) :
    Nat → Nat → Option RpcErr → EndpointResult α × List (Nat × Nat)
  | 0, _, last => (.exhausted last, [])
  | rem + 1, attempt, _last =>
    match beh idx attempt with
    | .ok v => (.success v, [(idx, attempt)])
    | .error e =>
      if isRetriableRpcError e then
        let r := runAttempts beh idx rem (attempt + 1) (some e)
        (r.1, (idx, attempt) :: r.2)
      else (.fatal e, [(idx, attempt)])

/-- Outer endpoint loop of rpcCall over the rotation order, threading the
last recorded error; on success the cursor advances to the successor of
the successful endpoint index modulo the pool size. -/
def runPool (beh : Nat → Nat → Except RpcErr α) (retries n : Nat) :
    List Nat → Option RpcErr → Nat → RpcOutcome α
  | [], last, cursor =>
    ⟨.error (match last with | some e => .rpc e | none => .allFailed), cursor, []⟩
  | idx :: rest, last, cursor =>
    match runAttempts beh idx retries 0 last with
    | (.success v, tr) => ⟨.ok v, (idx + 1) % n, tr⟩
    | (.fatal e, tr) => ⟨.error (.rpc e), cursor, tr⟩
    | (.exhausted last2, tr) =>
      let r := runPool beh retries n rest last2 cursor
      ⟨r.result, r.cursor, tr ++ r.trace⟩

/-- rpcCall from lib/provider.js over an abstract task behavior: try the
endpoints in rotation order starting at the cursor, each up to the given
number of attempts. -/
def rpcCall (beh : Nat → Nat → Except RpcErr α) (n cursor retries : Nat) : RpcOutcome α :=
  if n = 0 then ⟨.error .notInitialized, cursor, []⟩
  else runPool beh retries n ((List.range n).map (fun i => (cursor + i) % n)) none cursor

/-- Loop body of getBlockByTime, fueled; the fuel bounds the iteration
count and each iteration shrinks the interval, so fuel equal to the
initial interval width reproduces the while loop exactly. -/
def blockByTimeGo (ts : Nat → Nat) (target : Nat) : Nat → Nat → Nat → Nat
  | 0, low, _ => low
  | fuel + 1, low, high =>
    if low < high then
      if ts ((low + high + 1) / 2) ≤ target then
        blockByTimeGo ts target fuel ((low + high + 1) / 2) high
      else
        blockByTimeGo ts target fuel low ((low + high + 1) / 2 - 1)
    else low

/-- getBlockByTime from lib/provider.js: binary search for the greatest
block in the interval whose timestamp is at most the target. -/
def getBlockByTime (ts : Nat → Nat) (target low high : Nat) : Nat :=
  blockByTimeGo ts target (high - low) low high

/-- Loop body of getDeployBlock, fueled like the previous search. -/
def deployGo (hasCode : Nat → Bool) : Nat → Nat → Nat → Nat
  | 0, low, _ => low
  | fuel + 1, low, high =>
    if low < high then
      if hasCode ((low + high) / 2) then deployGo hasCode fuel low ((low + high) / 2)
      else deployGo hasCode fuel ((low + high) / 2 + 1) high
    else low

/-- getDeployBlock from lib/provider.js: binary search over [0, latest]
for the lowest block where the contract bytecode is non-empty. -/
def getDeployBlock (hasCode : Nat → Bool) (latest : Nat) : Nat :=
  deployGo hasCode latest 0 latest

/-- Chain-state oracles consumed by discoverPriceSource at the head
block: direct accessor probe success, the decimals accessor result, the
convertToAssets probe success, the resolved token symbol, the raw minter
accessor result, and bytecode presence. -/
structure ChainEnv where
  directOk : String → String → Bool
  decimalsOf : String → Option Nat
  convertOk : String → Nat → Bool
  symbolOf : Option String
  minterCandidate : Option String
  hasCodeAt : String → Bool

/-- resolveMinter from lib/discovery.js: keep the minter accessor result
only when it is itself a contract (non-empty bytecode at head). -/
def resolveMinter (env : ChainEnv) : Option String :=
  match env.minterCandidate with
  | none => none
  | some m => if env.hasCodeAt m then some m else none

/-- preferredFunctionsFromSymbol from lib/discovery.js: uppercase the
symbol, prefer the AA list when it contains AA, else the BB list when it
contains BB, else the standard list; a missing or empty symbol gives the
standard list. -/
def preferredFunctionsFromSymbol (symbol : Option String) : List String :=
  match symbol with
  | none => PRICE_FUNCTIONS_standard
  | some sym =>
    if sym = "" then PRICE_FUNCTIONS_standard
    else
      if jsIncludes (jsToUpper sym) "AA" then PRICE_FUNCTIONS_AA
      else if jsIncludes (jsToUpper sym) "BB" then PRICE_FUNCTIONS_BB
      else PRICE_FUNCTIONS_standard

/-- The ordered candidate address list of discoverPriceSource: the
verified minter first when present, then the input address. -/
def candidateAddrs (inputAddress : String) (minter : Option String) : List String :=
  (match minter with | some m => [m] | none => []) ++ [inputAddress]

/-- The accessor name order of discoverPriceSource: an explicit override
is the sole candidate, otherwise the symbol-keyed preference list. -/
def functionOrderFor (priceFnOpt : Option String) (symbol : Option String) : List String :=
  match priceFnOpt with
  | some fn => [fn]
  | none => preferredFunctionsFromSymbol symbol

/-- One observable probe made by discoverPriceSource: a direct accessor
call, a decimals call, or a convertToAssets call with its argument. -/
inductive ProbeEvent where
  | direct (addr fn : String)
  | decimalsProbe (addr : String)
  | convert (addr : String) (oneShare : Nat)
deriving DecidableEq

/-- Inner accessor loop of the direct probe phase on one candidate:
return the first accessor name whose probe succeeds, with the probes
made. -/
def probeFns (env : ChainEnv) (addr : String) : List String → Option String × List ProbeEvent
  | [] => (none, [])
  | fn :: rest =>
    if env.directOk addr fn then (some fn, [.direct addr fn])
    else
      let r := probeFns env addr rest
      (r.1, .direct addr fn :: r.2)

/-- Outer candidate loop of the direct probe phase: first candidate and
accessor pair whose probe succeeds, with all probes made. -/
def probeCandidates (env : ChainEnv) (fns : List String) :
    List String → Option (String × String) × List ProbeEvent
  | [] => (none, [])
  | c :: rest =>
    match probeFns env c fns with
    | (some fn, tr) => (some (c, fn), tr)
    | (none, tr) =>
      let r := probeCandidates env fns rest
      (r.1, tr ++ r.2)

/-- ERC-4626 fallback loop of discoverPriceSource: for each candidate
read decimals, accept only values at most 30, form one share as ten to
the decimals and probe convertToAssets with it. -/
def erc4626Loop (env : ChainEnv) : List String → Option (String × Nat × Nat) × List ProbeEvent
  | [] => (none, [])
  | c :: rest =>
    match env.decimalsOf c with
    | none =>
      let r := erc4626Loop env rest
      (r.1, .decimalsProbe c :: r.2)
    | some d =>
      if 30 < d then
        let r := erc4626Loop env rest
        (r.1, .decimalsProbe c :: r.2)
      else
        if env.convertOk c (10 ^ d) then
          (some (c, 10 ^ d, d), [.decimalsProbe c, .convert c (10 ^ d)])
        else
          let r := erc4626Loop env rest
          (r.1, .decimalsProbe c :: .convert c (10 ^ d) :: r.2)

/-- The DiscoveryResult record produced by discoverPriceSource; the
share fields are present only in erc4626 mode. -/
structure DiscoveryResult where
  sourceAddress : String
  sourceFunction : String
  mode : String
  oneShare : Option Nat
  shareDecimals : Option Nat
  tokenAddress : String
  tokenSymbol : Option String
  minterAddress : Option String
deriving DecidableEq

/-- discoverPriceSource from lib/discovery.js: direct probes over every
candidate and accessor in order, then the ERC-4626 fallback over every
candidate, else an error naming the candidate addresses tried; paired
with the full probe trace. -/
def discoverPriceSource (env : ChainEnv) (inputAddress : String) (priceFnOpt : Option String) :
    Except (List String) DiscoveryResult × List ProbeEvent :=
  let tokenSymbol := env.symbolOf
  let minter := resolveMinter env
  let candidates := candidateAddrs inputAddress minter
  let functionOrder := functionOrderFor priceFnOpt tokenSymbol
  match probeCandidates env functionOrder candidates with
  | (some (c, fn), tr) =>
    (.ok { sourceAddress := c, sourceFunction := fn, mode := "direct", oneShare := none,
           shareDecimals := none, tokenAddress := inputAddress, tokenSymbol := tokenSymbol,
           minterAddress := minter }, tr)
  | (none, tr) =>
    match erc4626Loop env candidates with
    | (some (c, sh, d), tr2) =>
      (.ok { sourceAddress := c, sourceFunction := "convertToAssets", mode := "erc4626",
             oneShare := some sh, shareDecimals := some d, tokenAddress := inputAddress,
             tokenSymbol := tokenSymbol, minterAddress := minter }, tr ++ tr2)
    | (none, tr2) => (.error candidates, tr ++ tr2)

/-- Chain state read by the sampling loop: a timestamp and a price for
every block number. -/
structure ChainData where
  ts : Nat → Nat
  price : Nat → Nat

/-- One emitted CSV row: UTC day index, block, price, and the signed
delta against the previously emitted price. -/
structure Row where
  day : Nat
  block : Nat
  price : Nat
  delta : Int
deriving DecidableEq

/-- The mutable state of the sampling loop in main of
scripts/backfill-price.js (the revision with the delta column and the
extended summary); the first and last date and block are recoverable
from the rows list and are not duplicated here. -/
structure LoopState where
  lastDate : Option Nat
  prevPrice : Option Nat
  rows : List Row
  firstTs : Option Nat
  lastTs : Option Nat
  firstPrice : Option Nat
  lastPrice : Option Nat
  observations : Nat
  peakPrice : Option Nat
  maxDrawdown : ℚ
  returns : List ℚ
deriving DecidableEq

/-- The loop state before the first iteration. -/
def initState : LoopState :=
  { lastDate := none, prevPrice := none, rows := [], firstTs := none, lastTs := none,
    firstPrice := none, lastPrice := none, observations := 0, peakPrice := none,
    maxDrawdown := 0, returns := [] }

/-- The UTC calendar day index of a Unix timestamp; two timestamps give
the same ISO date prefix exactly when they give the same day index. -/
def dayOf (t : Nat) : Nat := t / 86400

/-- The emitted delta: zero for the first observation, else the signed
difference against the previously emitted price. -/
def deltaOfPrev : Option Nat → Nat → Int
  | none, _ => 0
  | some pp, p => (p : Int) - (pp : Int)

/-- Keep an already-recorded first value, else record the new one, the
shape of the firstTs and firstPrice updates in the loop. -/
def keepFirst : Option Nat → Nat → Option Nat
  | none, t => some t
  | some x, _ => some x

/-- The running peak price update. -/
def peakOf : Option Nat → Nat → Nat
  | none, p => p
  | some q, p => if q < p then p else q

/-- The running maximum drawdown update: truncating BigInt division by
the peak, then an exact-rational division by 100 standing for the
JavaScript double. -/
def drawdownOf (peak p : Nat) (cur : ℚ) : ℚ :=
  if 0 < peak then
    if cur < (((peak - p) * 10000 / peak : Nat) : ℚ) / 100 then
      (((peak - p) * 10000 / peak : Nat) : ℚ) / 100
    else cur
  else cur

/-- The per-step simple return list update. -/
def returnsOf (prev : Option Nat) (p : Nat) (rs : List ℚ) : List ℚ :=
  match prev with
  | some pp => if 0 < pp then rs ++ [((p : ℚ) - (pp : ℚ)) / (pp : ℚ)] else rs
  | none => rs

/-- One iteration body of the sampling loop at a block: emit a row and
update every accumulator only when the day differs from the previously
emitted day. BigInt arithmetic is exact. -/
def sampleStep (cd : ChainData) (st : LoopState) (block : Nat) : LoopState :=
  if st.lastDate = some (dayOf (cd.ts block)) then st
  else
    { lastDate := some (dayOf (cd.ts block))
      prevPrice := some (cd.price block)
      rows := st.rows ++
        [⟨dayOf (cd.ts block), block, cd.price block, deltaOfPrev st.prevPrice (cd.price block)⟩]
      firstTs := keepFirst st.firstTs (cd.ts block)
      lastTs := some (cd.ts block)
      firstPrice := keepFirst st.firstPrice (cd.price block)
      lastPrice := some (cd.price block)
      observations := st.observations + 1
      peakPrice := some (peakOf st.peakPrice (cd.price block))
      maxDrawdown := drawdownOf (peakOf st.peakPrice (cd.price block)) (cd.price block)
        st.maxDrawdown
      returns := returnsOf st.prevPrice (cd.price block) st.returns }

/-- The two sampling policies: fixed block step (600 line revision's
fast mode, step positive) or the default daily advance. -/
inductive Policy where
  | daily
  | step (k : Nat)

/-- Fueled sampling loop of main: sample the block, then advance either
by the fixed step capped at the end block, or to the block at or before
one day past the current timestamp; stop when the range is exhausted or
the advance does not progress. -/
def runLoopGo (cd : ChainData) (pol : Policy) (endB : Nat) :
    Nat → Nat → LoopState → LoopState
  | 0, _, st => st
  | fuel + 1, block, st =>
    if block ≤ endB then
      let st2 := sampleStep cd st block
      match pol with
      | .step k =>
        if block = endB then st2
        else
          let nb := min (block + k) endB
          if nb ≤ block then st2 else runLoopGo cd pol endB fuel nb st2
      | .daily =>
        let nb := getBlockByTime cd.ts (cd.ts block + 24 * 3600) (block + 1) endB
        if nb ≤ block then st2 else runLoopGo cd pol endB fuel nb st2
    else st

/-- The sampling loop over the closed block interval from start to end;
the fuel equals the interval width plus one, the exact iteration bound
since every advance moves at least one block forward. -/
def runLoop (cd : ChainData) (pol : Policy) (endB startB : Nat) (st : LoopState) : LoopState :=
  runLoopGo cd pol endB (endB + 1 - startB) startB st

/-- JavaScript Math.round: round half toward positive infinity. -/
def jsRound (q : ℚ) : Int := (q + 1 / 2).floor

/-- The reported APR: unavailable, or the percentage computed from the
price quotient raised to 365 over the day count; the transcendental
power is represented by its base and exponent parameters. -/
inductive AprReport where
  | unavailable
  | computed (base : ℚ) (expDays : Int)
deriving DecidableEq

/-- The summary figures the claims speak about; percentages are exact
rationals standing for the JavaScript doubles. -/
structure SummaryData where
  days : Int
  missingDays : Int
  totalReturnPct : Option ℚ
  apr : AprReport
deriving DecidableEq

/-- End-of-run summary computation of main: the day count from the first
and last emitted timestamps, missing days against the observation count,
and total return and APR only when both boundary prices are positive and
at least one day elapsed. -/
def mkSummary (st : LoopState) : SummaryData :=
  let days : Int :=
    match st.firstTs, st.lastTs with
    | some ft, some lt => max 1 (jsRound (((lt : ℚ) - (ft : ℚ)) / 86400))
    | _, _ => 0
  let missingDays : Int := if 0 < days then max 0 (days + 1 - (st.observations : Int)) else 0
  match st.firstPrice, st.lastPrice with
  | some fp, some lp =>
    if 0 < fp ∧ 0 < lp ∧ 0 < days then
      { days := days, missingDays := missingDays,
        totalReturnPct := some ((((lp : ℚ) - (fp : ℚ)) / (fp : ℚ)) * 100),
        apr := .computed ((lp : ℚ) / (fp : ℚ)) days }
    else
      { days := days, missingDays := missingDays, totalReturnPct := none, apr := .unavailable }
  | _, _ =>
    { days := days, missingDays := missingDays, totalReturnPct := none, apr := .unavailable }

/-! Lemmas about the block-at-or-before-time search. -/

theorem blockByTimeGo_spec (ts : Nat → Nat) (target : Nat)
    (hmono : ∀ a b, a ≤ b → ts a ≤ ts b) :
    ∀ fuel low high, high - low ≤ fuel → low ≤ high →
      low ≤ blockByTimeGo ts target fuel low high ∧
      blockByTimeGo ts target fuel low high ≤ high ∧
      (ts low ≤ target →
        ts (blockByTimeGo ts target fuel low high) ≤ target ∧
        ∀ b, b ≤ high → ts b ≤ target → b ≤ blockByTimeGo ts target fuel low high) ∧
      (target < ts low → blockByTimeGo ts target fuel low high = low) := by
  intro fuel
  induction fuel with
  | zero =>
    intro low high hf hlh
    have heq : low = high := by omega
    subst heq
    exact ⟨le_refl _, le_refl _, fun h => ⟨h, fun b hb _ => hb⟩, fun _ => rfl⟩
  | succ fuel ih =>
    intro low high hf hlh
    simp only [blockByTimeGo]
    by_cases hlt : low < high
    · rw [if_pos hlt]
      set mid := (low + high + 1) / 2 with hmid
      have hmid1 : low < mid := by omega
      have hmid2 : mid ≤ high := by omega
      by_cases hts : ts mid ≤ target
      · rw [if_pos hts]
        obtain ⟨h1, h2, h3, _h4⟩ := ih mid high (by omega) (by omega)
        refine ⟨by omega, h2, fun _ => h3 hts, fun htl => ?_⟩
        have := hmono low mid (by omega)
        omega
      · rw [if_neg hts]
        obtain ⟨h1, h2, h3, h4⟩ := ih low (mid - 1) (by omega) (by omega)
        refine ⟨h1, by omega, fun hlow => ?_, h4⟩
        obtain ⟨ha, hb⟩ := h3 hlow
        refine ⟨ha, fun b hbh hbt => ?_⟩
        by_cases hbm : b ≤ mid - 1
        · exact hb b hbm hbt
        · have := hmono mid b (by omega)
          omega
    · rw [if_neg hlt]
      have heq : low = high := by omega
      exact ⟨le_refl _, by omega, fun h => ⟨h, fun b hb _ => by omega⟩, fun _ => rfl⟩

/-- C1: for every monotone non-decreasing timestamp sequence and every
interval with low at most high, getBlockByTime stays in the interval,
returns the greatest block of the interval whose timestamp is at most
the target when the bottom of the interval qualifies, returns low when
the target precedes the timestamp at low, and returns high when the
target is at or past the timestamp at high. -/
theorem C1_blockAtOrBeforeTime_correct (ts : Nat → Nat) (target low high : Nat)
    (hmono : ∀ a b, a ≤ b → ts a ≤ ts b) (hlh : low ≤ high) :
    low ≤ getBlockByTime ts target low high ∧
    getBlockByTime ts target low high ≤ high ∧
    (ts low ≤ target →
      ts (getBlockByTime ts target low high) ≤ target ∧
      ∀ b, low ≤ b → b ≤ high → ts b ≤ target → b ≤ getBlockByTime ts target low high) ∧
    (target < ts low → getBlockByTime ts target low high = low) ∧
    (ts high ≤ target → getBlockByTime ts target low high = high) := by
  unfold getBlockByTime
  obtain ⟨h1, h2, h3, h4⟩ := blockByTimeGo_spec ts target hmono (high - low) low high (le_refl _) hlh
  refine ⟨h1, h2, fun hl => ⟨(h3 hl).1, fun b _ hbh hbt => (h3 hl).2 b hbh hbt⟩, h4, fun hh => ?_⟩
  have hl : ts low ≤ target := le_trans (hmono low high hlh) hh
  have := (h3 hl).2 high (le_refl _) hh
  omega

/-- A concrete monotone timestamp sequence used by the witnesses. -/
def tsLinear : Nat → Nat := fun b => 10 * b

/-- Witness for C1: with timestamps ten times the block number the
search over the interval from 0 to 10 at target 35 returns block 3. -/
theorem C1_witness : getBlockByTime tsLinear 35 0 10 = 3 := by
  obtain ⟨h1, h2, h3, h4, h5⟩ :=
    C1_blockAtOrBeforeTime_correct tsLinear 35 0 10
      (fun a b hab => by simpa [tsLinear] using Nat.mul_le_mul_left 10 hab) (by omega)
  have hl : tsLinear 0 ≤ 35 := by simp [tsLinear]
  obtain ⟨ha, hb⟩ := h3 hl
  have h3le : (3 : Nat) ≤ getBlockByTime tsLinear 35 0 10 :=
    hb 3 (by omega) (by omega) (by simp [tsLinear])
  have hup : 10 * getBlockByTime tsLinear 35 0 10 ≤ 35 := by simpa [tsLinear] using ha
  omega

/-! Lemmas about the deployment block search. -/

theorem deployGo_reaches (hasCode : Nat → Bool) (D : Nat)
    (hbefore : ∀ b, b < D → hasCode b = false) :
    ∀ fuel low high, high - low ≤ fuel → low ≤ D → D ≤ high →
      (∀ b, D ≤ b → b ≤ high → hasCode b = true) →
      deployGo hasCode fuel low high = D := by
  intro fuel
  induction fuel with
  | zero =>
    intro low high hf h1 h2 _
    simp only [deployGo]
    omega
  | succ fuel ih =>
    intro low high hf h1 h2 htrue
    simp only [deployGo]
    by_cases hlt : low < high
    · rw [if_pos hlt]
      set mid := (low + high) / 2 with hmid
      have hm1 : low ≤ mid := by omega
      have hm2 : mid < high := by omega
      cases hc : hasCode mid with
      | true =>
        rw [if_pos rfl]
        have hDm : D ≤ mid := by
          by_contra hcon
          have := hbefore mid (by omega)
          rw [this] at hc
          exact Bool.noConfusion hc
        exact ih low mid (by omega) h1 hDm (fun b hb1 hb2 => htrue b hb1 (by omega))
      | false =>
        rw [if_neg (by simp)]
        have hmD : mid < D := by
          by_contra hcon
          have := htrue mid (by omega) (by omega)
          rw [this] at hc
          exact Bool.noConfusion hc
        exact ih (mid + 1) high (by omega) (by omega) h2 htrue
    · rw [if_neg hlt]
      omega

/-- C4: for a bytecode sequence empty strictly before block D and
non-empty from D up to the head, the deployment block search over the
head returns exactly D; the boundary cases D equal to 0 and D equal to
the head are instances. -/
theorem C4_deploymentBlock_exact (hasCode : Nat → Bool) (head D : Nat)
    (hD : D ≤ head)
    (hbefore : ∀ b, b < D → hasCode b = false)
    (hafter : ∀ b, D ≤ b → b ≤ head → hasCode b = true) :
    getDeployBlock hasCode head = D := by
  unfold getDeployBlock
  exact deployGo_reaches hasCode D hbefore head 0 head (by omega) (by omega) hD hafter

/-- Witness for C4: an interior deployment block, the genesis boundary
and the head boundary, each computed by the search. -/
theorem C4_witness :
    getDeployBlock (fun b => decide (5 ≤ b)) 9 = 5 ∧
    getDeployBlock (fun _ => true) 7 = 0 ∧
    getDeployBlock (fun b => decide (9 ≤ b)) 9 = 9 := by
  refine ⟨?_, ?_, ?_⟩
  · exact C4_deploymentBlock_exact (fun b => decide (5 ≤ b)) 9 5 (by omega)
      (fun b hb => by simp; omega) (fun b hb _ => by simp; omega)
  · exact C4_deploymentBlock_exact (fun _ => true) 7 0 (by omega)
      (fun b hb => by omega) (fun b _ _ => rfl)
  · exact C4_deploymentBlock_exact (fun b => decide (9 ≤ b)) 9 9 (by omega)
      (fun b hb => by simp; omega) (fun b hb _ => by simp; omega)

theorem deployGo_allEmpty (hasCode : Nat → Bool) :
    ∀ fuel low high, high - low ≤ fuel → low ≤ high →
      (∀ b, b ≤ high → hasCode b = false) →
      deployGo hasCode fuel low high = high := by
  intro fuel
  induction fuel with
  | zero =>
    intro low high hf hlh _
    simp only [deployGo]
    omega
  | succ fuel ih =>
    intro low high hf hlh hfalse
    simp only [deployGo]
    by_cases hlt : low < high
    · rw [if_pos hlt]
      set mid := (low + high) / 2 with hmid
      have hm2 : mid < high := by omega
      rw [hfalse mid (by omega)]
      rw [if_neg (by simp)]
      exact ih (mid + 1) high (by omega) (by omega) hfalse
    · rw [if_neg hlt]
      omega

/-- C10: an address whose bytecode is empty at every block up to the
head makes the deployment search return the head block itself, the same
answer it gives for a contract deployed exactly at the head, so the two
situations are indistinguishable from the search result. -/
theorem C10_neverDeployed_returns_head (hasCode hcAtHead : Nat → Bool) (head : Nat)
    (hempty : ∀ b, b ≤ head → hasCode b = false)
    (h2before : ∀ b, b < head → hcAtHead b = false)
    (h2at : ∀ b, head ≤ b → b ≤ head → hcAtHead b = true) :
    getDeployBlock hasCode head = head ∧
    getDeployBlock hcAtHead head = getDeployBlock hasCode head := by
  have h1 : getDeployBlock hasCode head = head := by
    unfold getDeployBlock
    exact deployGo_allEmpty hasCode head 0 head (by omega) (by omega) hempty
  refine ⟨h1, ?_⟩
  rw [h1]
  unfold getDeployBlock
  exact deployGo_reaches hcAtHead head h2before head 0 head (by omega) (by omega) (le_refl _) h2at

/-- Witness for C10: a never-deployed predicate over head 6 returns 6,
matching a deployment exactly at block 6. -/
theorem C10_witness :
    getDeployBlock (fun _ => false) 6 = 6 ∧
    getDeployBlock (fun b => decide (6 ≤ b)) 6 = getDeployBlock (fun _ => false) 6 := by
  exact C10_neverDeployed_returns_head (fun _ => false) (fun b => decide (6 ≤ b)) 6
    (fun b _ => rfl) (fun b hb => by simp; omega) (fun b hb _ => by simp; omega)

/-! Lemmas about the provider pool. -/

theorem runAttempts_allRetriable {α : Type} (beh : Nat → Nat → Except RpcErr α) (idx : Nat)
    (errF : Nat → RpcErr)
    (hfail : ∀ a, beh idx a = .error (errF a))
    (hretr : ∀ a, isRetriableRpcError (errF a) = true) :
    ∀ rem attempt last,
      runAttempts beh idx rem attempt last =
        (.exhausted (if rem = 0 then last else some (errF (attempt + rem - 1))),
         (List.range' attempt rem).map (fun a => (idx, a))) := by
  intro rem
  induction rem with
  | zero =>
    intro attempt last
    simp [runAttempts]
  | succ rem ih =>
    intro attempt last
    simp only [runAttempts, hfail attempt, hretr attempt, if_true]
    rw [ih (attempt + 1) (some (errF attempt))]
    simp only [Prod.mk.injEq, List.range'_succ, List.map_cons, List.cons.injEq, true_and,
      and_true]
    by_cases h0 : rem = 0
    · subst h0
      simp
    · rw [if_neg h0, if_neg (by omega)]
      have harg : attempt + 1 + rem - 1 = attempt + (rem + 1) - 1 := by omega
      rw [harg]

theorem runAttempts_firstOk {α : Type} (beh : Nat → Nat → Except RpcErr α) (idx : Nat) (v : α)
    (hok : beh idx 0 = .ok v) :
    ∀ rem last, 0 < rem → runAttempts beh idx rem 0 last = (.success v, [(idx, 0)]) := by
  intro rem last hr
  cases rem with
  | zero => omega
  | succ rem => simp [runAttempts, hok]

theorem runAttempts_firstFatal {α : Type} (beh : Nat → Nat → Except RpcErr α) (idx : Nat)
    (e : RpcErr) (hf : beh idx 0 = .error e) (hnr : isRetriableRpcError e = false) :
    ∀ rem last, 0 < rem → runAttempts beh idx rem 0 last = (.fatal e, [(idx, 0)]) := by
  intro rem last hr
  cases rem with
  | zero => omega
  | succ rem => simp [runAttempts, hf, hnr]

theorem runAttempts_success_shape {α : Type} (beh : Nat → Nat → Except RpcErr α) (idx : Nat) :
    ∀ rem attempt last v tr,
      runAttempts beh idx rem attempt last = (.success v, tr) →
      ∃ tr2 a, tr = tr2 ++ [(idx, a)] ∧ beh idx a = .ok v := by
  intro rem
  induction rem with
  | zero =>
    intro attempt last v tr h
    simp [runAttempts] at h
  | succ rem ih =>
    intro attempt last v tr h
    cases hb : beh idx attempt with
    | ok w =>
      simp only [runAttempts, hb, Prod.mk.injEq] at h
      obtain ⟨h1, h2⟩ := h
      have hw : w = v := by
        have := h1
        injection this
      subst hw
      exact ⟨[], attempt, by rw [← h2]; rfl, hb⟩
    | error e =>
      by_cases hre : isRetriableRpcError e = true
      · simp only [runAttempts, hb, hre, if_true, Prod.mk.injEq] at h
        obtain ⟨h1, h2⟩ := h
        obtain ⟨tr2, a, ht, hba⟩ :=
          ih (attempt + 1) (some e) v
            (runAttempts beh idx rem (attempt + 1) (some e)).2 (Prod.ext h1 rfl)
        refine ⟨(idx, attempt) :: tr2, a, ?_, hba⟩
        rw [← h2, ht]
        rfl
      · simp only [runAttempts, hb] at h
        rw [if_neg hre] at h
        simp only [Prod.mk.injEq] at h
        exact absurd h.1 (by intro hcon; exact EndpointResult.noConfusion hcon)

/-- The last recorded error after a run of the endpoint loop in which
every endpoint exhausts its retries. -/
def lastErrAfter (errF : Nat → Nat → RpcErr) (retries : Nat) :
    List Nat → Option RpcErr → Option RpcErr
  | [], last => last
  | idx :: rest, last =>
    lastErrAfter errF retries rest (if retries = 0 then last else some (errF idx (retries - 1)))

theorem runPool_allRetriableFail {α : Type} (beh : Nat → Nat → Except RpcErr α)
    (errF : Nat → Nat → RpcErr) (retries n : Nat)
    (hfail : ∀ i a, beh i a = .error (errF i a))
    (hretr : ∀ i a, isRetriableRpcError (errF i a) = true) :
    ∀ order last cursor,
      runPool beh retries n order last cursor =
        ⟨.error (match lastErrAfter errF retries order last with
                 | some e => .rpc e
                 | none => .allFailed),
         cursor,
         order.flatMap (fun idx => (List.range retries).map (fun a => (idx, a)))⟩ := by
  intro order
  induction order with
  | nil =>
    intro last cursor
    simp [runPool, lastErrAfter]
  | cons idx rest ih =>
    intro last cursor
    simp only [runPool,
      runAttempts_allRetriable beh idx (errF idx) (hfail idx) (hretr idx) retries 0 last]
    rw [ih]
    simp only [lastErrAfter, List.flatMap_cons, List.range_eq_range', Nat.zero_add]

theorem lastErrAfter_of_getLast (errF : Nat → Nat → RpcErr) (retries : Nat) (hr : 0 < retries) :
    ∀ order last idxL, order.getLast? = some idxL →
      lastErrAfter errF retries order last = some (errF idxL (retries - 1)) := by
  intro order
  induction order with
  | nil => intro last idxL h; simp at h
  | cons idx rest ih =>
    intro last idxL h
    cases rest with
    | nil =>
      simp at h
      subst h
      simp [lastErrAfter, if_neg (by omega : ¬ retries = 0)]
    | cons idx2 rest2 =>
      rw [List.getLast?_cons_cons] at h
      simp only [lastErrAfter]
      exact ih _ idxL h

theorem runPool_prefixFail_then_ok {α : Type} (beh : Nat → Nat → Except RpcErr α)
    (errF : Nat → Nat → RpcErr) (retries n : Nat) (v : α) (hr : 0 < retries) :
    ∀ pre s rest last cursor,
      (∀ idx, idx ∈ pre → ∀ a, beh idx a = .error (errF idx a)) →
      (∀ idx, idx ∈ pre → ∀ a, isRetriableRpcError (errF idx a) = true) →
      beh s 0 = .ok v →
      runPool beh retries n (pre ++ s :: rest) last cursor =
        ⟨.ok v, (s + 1) % n,
         pre.flatMap (fun idx => (List.range retries).map (fun a => (idx, a))) ++ [(s, 0)]⟩ := by
  intro pre
  induction pre with
  | nil =>
    intro s rest last cursor _ _ hok
    rw [List.nil_append]
    simp only [runPool, runAttempts_firstOk beh s v hok retries last hr]
    simp
  | cons idx pre ih =>
    intro s rest last cursor hfail hretr hok
    rw [List.cons_append]
    simp only [runPool,
      runAttempts_allRetriable beh idx (errF idx) (hfail idx (by simp))
        (hretr idx (by simp)) retries 0 last]
    rw [ih s rest _ cursor (fun j hj a => hfail j (by simp [hj]) a)
      (fun j hj a => hretr j (by simp [hj]) a) hok]
    simp only [List.flatMap_cons, List.range_eq_range', List.append_assoc, Nat.zero_add]

theorem runPool_error_cursor {α : Type} (beh : Nat → Nat → Except RpcErr α) (retries n : Nat) :
    ∀ order last cursor pe,
      (runPool beh retries n order last cursor).result = .error pe →
      (runPool beh retries n order last cursor).cursor = cursor := by
  intro order
  induction order with
  | nil => intro last cursor pe _; rfl
  | cons idx rest ih =>
    intro last cursor pe h
    cases har : runAttempts beh idx retries 0 last with
    | mk r tr =>
      cases r with
      | success v =>
        simp only [runPool, har] at h
        exact Except.noConfusion h
      | fatal e =>
        simp only [runPool, har]
      | exhausted last2 =>
        simp only [runPool, har] at h ⊢
        exact ih last2 cursor pe h

theorem runPool_ok_cursor {α : Type} (beh : Nat → Nat → Except RpcErr α) (retries n : Nat) :
    ∀ order last cursor v,
      (runPool beh retries n order last cursor).result = .ok v →
      ∃ idx a tr, (runPool beh retries n order last cursor).trace = tr ++ [(idx, a)] ∧
        beh idx a = .ok v ∧
        (runPool beh retries n order last cursor).cursor = (idx + 1) % n := by
  intro order
  induction order with
  | nil => intro last cursor v h; exact Except.noConfusion h
  | cons idx rest ih =>
    intro last cursor v h
    cases har : runAttempts beh idx retries 0 last with
    | mk r tr =>
      cases r with
      | success w =>
        simp only [runPool, har] at h ⊢
        have hw : w = v := Except.ok.inj h
        subst hw
        obtain ⟨tr2, a, ht, hba⟩ := runAttempts_success_shape beh idx retries 0 last w tr har
        exact ⟨idx, a, tr2, ht, hba, rfl⟩
      | fatal e =>
        simp only [runPool, har] at h
        exact Except.noConfusion h
      | exhausted last2 =>
        simp only [runPool, har] at h ⊢
        obtain ⟨i2, a2, tr2, ht, hba, hc⟩ := ih last2 cursor v h
        exact ⟨i2, a2, tr ++ tr2, by rw [ht, List.append_assoc], hba, hc⟩

theorem runPool_cursor_lt {α : Type} (beh : Nat → Nat → Except RpcErr α) (retries n : Nat)
    (hn : 0 < n) :
    ∀ order last cursor, cursor < n →
      (runPool beh retries n order last cursor).cursor < n := by
  intro order
  induction order with
  | nil => intro last cursor h; exact h
  | cons idx rest ih =>
    intro last cursor h
    cases har : runAttempts beh idx retries 0 last with
    | mk r tr =>
      cases r with
      | success v =>
        simp only [runPool, har]
        exact Nat.mod_lt _ hn
      | fatal e =>
        simp only [runPool, har]
        exact h
      | exhausted last2 =>
        simp only [runPool, har]
        exact ih last2 cursor h

/-- C8: starting from a cursor inside the pool, the cursor rpcCall
leaves behind is again inside the pool; a failing call leaves the cursor
untouched; a successful call ends its trace at the succeeding task
execution and sets the cursor to the successor of that endpoint index
modulo the pool size. -/
theorem C8_cursor_invariant (α : Type) (beh : Nat → Nat → Except RpcErr α)
    (n cursor retries : Nat) (hc : cursor < n) :
    (rpcCall beh n cursor retries).cursor < n ∧
    (∀ pe, (rpcCall beh n cursor retries).result = .error pe →
      (rpcCall beh n cursor retries).cursor = cursor) ∧
    (∀ v, (rpcCall beh n cursor retries).result = .ok v →
      ∃ idx a tr, (rpcCall beh n cursor retries).trace = tr ++ [(idx, a)] ∧
        beh idx a = .ok v ∧
        (rpcCall beh n cursor retries).cursor = (idx + 1) % n) := by
  have hn : 0 < n := by omega
  rw [rpcCall, if_neg (by omega : ¬ n = 0)]
  refine ⟨runPool_cursor_lt beh retries n hn _ _ _ hc,
    fun pe h => runPool_error_cursor beh retries n _ _ _ pe h,
    fun v h => runPool_ok_cursor beh retries n _ _ _ v h⟩

/-- Witness for C8: a two-endpoint pool whose first endpoint succeeds at
once keeps the cursor in range and advances it past the successful
endpoint. -/
def behFirstOk : Nat → Nat → Except RpcErr Nat := fun _ _ => .ok 7

theorem C8_witness :
    (rpcCall behFirstOk 2 0 2).cursor < 2 ∧
    (rpcCall behFirstOk 2 0 2).cursor = 1 :=
  ⟨(C8_cursor_invariant Nat behFirstOk 2 0 2 (by omega)).1, rfl⟩

theorem lastErrAfter_zero (errF : Nat → Nat → RpcErr) :
    ∀ order last, lastErrAfter errF 0 order last = last := by
  intro order
  induction order with
  | nil => intro last; rfl
  | cons idx rest ih =>
    intro last
    simp only [lastErrAfter, if_pos rfl]
    exact ih last

theorem patterns_toLower_fixed : ∀ p ∈ RETRIABLE_ERROR_PATTERNS, jsToLower p = p := by decide

/-- C3: an error whose combined message text contains none of the fixed
transient fingerprints case-insensitively is classified non-retriable,
and a task failing with such an error on its very first execution makes
rpcCall propagate exactly that error at once: a single task execution in
the trace, so no retry on the same endpoint and no further endpoint, and
the cursor untouched. -/
theorem C3_nonretriable_fails_fast :
    (∀ e : RpcErr, (∀ p ∈ RETRIABLE_ERROR_PATTERNS, containsCI (errText e) p = false) →
      isRetriableRpcError e = false) ∧
    (∀ (α : Type) (beh : Nat → Nat → Except RpcErr α) (n cursor retries : Nat) (e : RpcErr),
      0 < n → 0 < retries → beh (cursor % n) 0 = .error e →
      (∀ p ∈ RETRIABLE_ERROR_PATTERNS, containsCI (errText e) p = false) →
      rpcCall beh n cursor retries = ⟨.error (.rpc e), cursor, [(cursor % n, 0)]⟩) := by
  have part1 : ∀ e : RpcErr, (∀ p ∈ RETRIABLE_ERROR_PATTERNS, containsCI (errText e) p = false) →
      isRetriableRpcError e = false := by
    intro e h
    rw [isRetriableRpcError, List.any_eq_false]
    intro p hp
    have hlow := patterns_toLower_fixed p hp
    have hfalse := h p hp
    rw [containsCI, hlow] at hfalse
    simp [hfalse]
  refine ⟨part1, ?_⟩
  intro α beh n cursor retries e hn hr hb hpat
  have hnr : isRetriableRpcError e = false := part1 e hpat
  rw [rpcCall, if_neg (by omega : ¬ n = 0)]
  obtain ⟨m, rfl⟩ : ∃ m, n = m + 1 := ⟨n - 1, by omega⟩
  rw [List.range_succ_eq_map, List.map_cons]
  simp only [Nat.add_zero] at hb ⊢
  simp only [runPool, runAttempts_firstFatal beh (cursor % (m + 1)) e hb hnr retries none hr]

/-- Concrete error and behavior for the C3 witness. -/
def eWeird : RpcErr := ⟨some "weird", some "bad thing", none⟩

def behWeird : Nat → Nat → Except RpcErr Nat := fun _ _ => .error eWeird

/-- Witness for C3: a three-endpoint pool at cursor 1 fails immediately
with the unmatched error and leaves a single-execution trace. -/
theorem C3_witness :
    rpcCall behWeird 3 1 2 = ⟨.error (.rpc eWeird), 1, [(1, 0)]⟩ :=
  C3_nonretriable_fails_fast.2 Nat behWeird 3 1 2 eWeird (by omega) (by omega) rfl (by decide)

/-- Counterexample to C2 as stated: a two-endpoint pool at cursor 0
whose first endpoint succeeds at once (the failing-endpoint count M is
0) ends with cursor 1, while the claim predicts (M + 2) mod N = 0. -/
def behOkNow : Nat → Nat → Except RpcErr Nat := fun _ _ => .ok 7

theorem C2_counterexample :
    (rpcCall behOkNow 2 0 2).result = .ok 7 ∧
    (rpcCall behOkNow 2 0 2).trace = [(0, 0)] ∧
    (rpcCall behOkNow 2 0 2).cursor = 1 ∧
    (0 + 2) % 2 ≠ 1 :=
  ⟨rfl, rfl, rfl, by decide⟩

/-- C2 amended: with the pool cursor at some position, the first M
rotation endpoints failing retriably on every attempt and the next
rotation endpoint succeeding at its first attempt, rpcCall returns that
success, the cursor becomes (cursor + M + 1) mod n, that is (M + 1)
mod n from a fresh pool rather than the claimed (M + 2) mod n, and the
trace shows each failing endpoint visited exactly once with exactly
retriesPerProvider attempts, then the succeeding endpoint once; when
every endpoint always fails retriably, the call fails with the last
observed error, or with the generic pool-exhaustion error when a zero
retry budget records no error. -/
theorem C2_rotation_amended :
    (∀ (α : Type) (beh : Nat → Nat → Except RpcErr α) (errF : Nat → Nat → RpcErr)
       (n cursor retries M : Nat) (v : α),
      0 < retries → M < n →
      (∀ i, i < M → ∀ a, beh ((cursor + i) % n) a = .error (errF ((cursor + i) % n) a)) →
      (∀ i, i < M → ∀ a, isRetriableRpcError (errF ((cursor + i) % n) a) = true) →
      beh ((cursor + M) % n) 0 = .ok v →
      rpcCall beh n cursor retries =
        ⟨.ok v, ((cursor + M) % n + 1) % n,
         ((List.range M).map (fun i => (cursor + i) % n)).flatMap
           (fun idx => (List.range retries).map (fun a => (idx, a))) ++ [((cursor + M) % n, 0)]⟩) ∧
    (∀ (α : Type) (beh : Nat → Nat → Except RpcErr α) (errF : Nat → Nat → RpcErr)
       (n cursor retries : Nat),
      0 < n →
      (∀ i a, beh i a = .error (errF i a)) →
      (∀ i a, isRetriableRpcError (errF i a) = true) →
      (0 < retries →
        (rpcCall beh n cursor retries).result =
          .error (.rpc (errF ((cursor + (n - 1)) % n) (retries - 1)))) ∧
      (retries = 0 → (rpcCall beh n cursor retries).result = .error .allFailed)) := by
  constructor
  · intro α beh errF n cursor retries M v hr hM hfail hretr hok
    rw [rpcCall, if_neg (by omega : ¬ n = 0)]
    have hdecomp : ∀ f : Nat → Nat, (List.range n).map f
        = ((List.range M).map f) ++ f M ::
          ((List.range (n - M - 1)).map (fun j => f (M + 1 + j))) := by
      intro f
      have h1 : List.range n = List.range (M + 1 + (n - M - 1)) := by
        rw [show M + 1 + (n - M - 1) = n by omega]
      rw [h1, List.range_add, List.range_succ, List.map_append, List.map_append, List.map_map]
      simp [Function.comp_def]
    rw [hdecomp (fun i => (cursor + i) % n)]
    rw [runPool_prefixFail_then_ok beh errF retries n v hr _ _ _ none cursor
      (by
        intro idx hidx a
        rw [List.mem_map] at hidx
        obtain ⟨i, hi, rfl⟩ := hidx
        exact hfail i (List.mem_range.mp hi) a)
      (by
        intro idx hidx a
        rw [List.mem_map] at hidx
        obtain ⟨i, hi, rfl⟩ := hidx
        exact hretr i (List.mem_range.mp hi) a)
      hok]
  · intro α beh errF n cursor retries hn hfail hretr
    constructor
    · intro hr
      rw [rpcCall, if_neg (by omega : ¬ n = 0)]
      rw [runPool_allRetriableFail beh errF retries n hfail hretr _ none cursor]
      have hlast : lastErrAfter errF retries ((List.range n).map (fun i => (cursor + i) % n)) none
          = some (errF ((cursor + (n - 1)) % n) (retries - 1)) := by
        apply lastErrAfter_of_getLast errF retries hr
        obtain ⟨m, rfl⟩ : ∃ m, n = m + 1 := ⟨n - 1, by omega⟩
        rw [List.range_succ, List.map_append]
        simp
      rw [hlast]
    · intro hr0
      subst hr0
      rw [rpcCall, if_neg (by omega : ¬ n = 0)]
      rw [runPool_allRetriableFail beh errF 0 n hfail hretr _ none cursor]
      rw [lastErrAfter_zero]

/-- Concrete error and behavior for the C2 witness: endpoint 0 always
times out, endpoint 1 succeeds. -/
def eTimeout : RpcErr := ⟨none, some "timeout", none⟩

def behOneFail : Nat → Nat → Except RpcErr Nat := fun i _ => if i = 0 then .error eTimeout else .ok 42

theorem eTimeout_retriable : isRetriableRpcError eTimeout = true := by decide

/-- Witness for C2: two endpoints, the first failing retriably twice,
the second succeeding, give the success, cursor 0 and the three-entry
trace. -/
theorem C2_witness :
    rpcCall behOneFail 2 0 2 = ⟨.ok 42, 0, [(0, 0), (0, 1), (1, 0)]⟩ := by
  have h := C2_rotation_amended.1 Nat behOneFail (fun _ _ => eTimeout) 2 0 2 1 42
    (by omega) (by omega)
    (fun i hi a => by
      have hi0 : i = 0 := by omega
      subst hi0
      rfl)
    (fun i _ a => eTimeout_retriable)
    rfl
  rw [h]
  rfl

/-! Lemmas about price source discovery. -/

/-- Whether a probe event belongs to the ERC-4626 fallback family. -/
def isFallbackEvent : ProbeEvent → Bool
  | .direct _ _ => false
  | .decimalsProbe _ => true
  | .convert _ _ => true

theorem probeFns_none_full (env : ChainEnv) (c : String) :
    ∀ fns tr, probeFns env c fns = (none, tr) →
      tr = fns.map (ProbeEvent.direct c) ∧ ∀ fn ∈ fns, env.directOk c fn = false := by
  intro fns
  induction fns with
  | nil =>
    intro tr h
    simp only [probeFns, Prod.mk.injEq] at h
    exact ⟨h.2.symm, by simp⟩
  | cons fn rest ih =>
    intro tr h
    by_cases hok : env.directOk c fn = true
    · simp only [probeFns, hok, if_true, Prod.mk.injEq] at h
      exact absurd h.1 (by simp)
    · have hfalse : env.directOk c fn = false := by
        cases hv : env.directOk c fn
        · rfl
        · exact absurd hv hok
      simp only [probeFns, hfalse, Bool.false_eq_true, if_false, Prod.mk.injEq] at h
      obtain ⟨h1, h2⟩ := h
      obtain ⟨ht, hall⟩ := ih (probeFns env c rest).2 (Prod.ext h1 rfl)
      refine ⟨by rw [← h2, ht, List.map_cons], ?_⟩
      intro g hg
      rcases List.mem_cons.mp hg with hg | hg
      · subst hg; exact hfalse
      · exact hall g hg

theorem probeFns_allFail (env : ChainEnv) (c : String) :
    ∀ fns, (∀ fn ∈ fns, env.directOk c fn = false) →
      probeFns env c fns = (none, fns.map (ProbeEvent.direct c)) := by
  intro fns
  induction fns with
  | nil => intro _; rfl
  | cons fn rest ih =>
    intro hall
    have hfalse : env.directOk c fn = false := hall fn (by simp)
    simp only [probeFns, hfalse, Bool.false_eq_true, if_false]
    rw [ih (fun g hg => hall g (by simp [hg]))]
    simp

theorem probeCandidates_none_full (env : ChainEnv) (fns : List String) :
    ∀ cands tr, probeCandidates env fns cands = (none, tr) →
      tr = cands.flatMap (fun c => fns.map (ProbeEvent.direct c)) ∧
      ∀ c ∈ cands, ∀ fn ∈ fns, env.directOk c fn = false := by
  intro cands
  induction cands with
  | nil =>
    intro tr h
    simp only [probeCandidates, Prod.mk.injEq] at h
    exact ⟨h.2.symm, by simp⟩
  | cons c rest ih =>
    intro tr h
    cases hpf : probeFns env c fns with
    | mk r1 tr1 =>
      cases r1 with
      | some fn =>
        simp only [probeCandidates, hpf, Prod.mk.injEq] at h
        exact absurd h.1 (by simp)
      | none =>
        simp only [probeCandidates, hpf, Prod.mk.injEq] at h
        obtain ⟨h1, h2⟩ := h
        obtain ⟨ht1, hall1⟩ := probeFns_none_full env c fns tr1 hpf
        obtain ⟨ht, hall⟩ := ih (probeCandidates env fns rest).2 (Prod.ext h1 rfl)
        constructor
        · rw [← h2, ht1, ht, List.flatMap_cons]
        · intro c2 hc2 fn hfn
          rcases List.mem_cons.mp hc2 with hc2 | hc2
          · subst hc2; exact hall1 fn hfn
          · exact hall c2 hc2 fn hfn

theorem probeCandidates_allFail (env : ChainEnv) (fns : List String) :
    ∀ cands, (∀ c ∈ cands, ∀ fn ∈ fns, env.directOk c fn = false) →
      probeCandidates env fns cands =
        (none, cands.flatMap (fun c => fns.map (ProbeEvent.direct c))) := by
  intro cands
  induction cands with
  | nil => intro _; rfl
  | cons c rest ih =>
    intro hall
    simp only [probeCandidates,
      probeFns_allFail env c fns (fun fn hfn => hall c (by simp) fn hfn)]
    rw [ih (fun c2 hc2 fn hfn => hall c2 (by simp [hc2]) fn hfn)]
    simp [List.flatMap_cons]

theorem probeFns_trace_pre (env : ChainEnv) (c : String) :
    ∀ fns, ∃ rest, (probeFns env c fns).2 ++ rest = fns.map (ProbeEvent.direct c) := by
  intro fns
  induction fns with
  | nil => exact ⟨[], rfl⟩
  | cons fn rest ih =>
    by_cases hok : env.directOk c fn = true
    · simp only [probeFns, hok, if_true]
      exact ⟨rest.map (ProbeEvent.direct c), rfl⟩
    · have hfalse : env.directOk c fn = false := by
        cases hv : env.directOk c fn
        · rfl
        · exact absurd hv hok
      simp only [probeFns, hfalse, Bool.false_eq_true, if_false]
      obtain ⟨r, hr⟩ := ih
      exact ⟨r, by rw [List.map_cons, ← hr]; rfl⟩

theorem probeCandidates_trace_pre (env : ChainEnv) (fns : List String) :
    ∀ cands, ∃ rest, (probeCandidates env fns cands).2 ++ rest =
      cands.flatMap (fun c => fns.map (ProbeEvent.direct c)) := by
  intro cands
  induction cands with
  | nil => exact ⟨[], rfl⟩
  | cons c rest ih =>
    cases hpf : probeFns env c fns with
    | mk r1 tr1 =>
      cases r1 with
      | some fn =>
        simp only [probeCandidates, hpf]
        obtain ⟨r, hr⟩ := probeFns_trace_pre env c fns
        rw [hpf] at hr
        refine ⟨r ++ rest.flatMap (fun c2 => fns.map (ProbeEvent.direct c2)), ?_⟩
        rw [List.flatMap_cons, ← hr]
        simp [List.append_assoc]
      | none =>
        simp only [probeCandidates, hpf]
        obtain ⟨ht1, _⟩ := probeFns_none_full env c fns tr1 hpf
        obtain ⟨r, hr⟩ := ih
        refine ⟨r, ?_⟩
        rw [List.flatMap_cons, ← hr, ht1]
        simp [List.append_assoc]

theorem erc_trace_fallback (env : ChainEnv) :
    ∀ cands, ∀ e ∈ (erc4626Loop env cands).2, isFallbackEvent e = true := by
  intro cands
  induction cands with
  | nil => intro e he; simp [erc4626Loop] at he
  | cons c rest ih =>
    intro e he
    cases hdc : env.decimalsOf c with
    | none =>
      simp only [erc4626Loop, hdc] at he
      rcases List.mem_cons.mp he with he | he
      · subst he; rfl
      · exact ih e he
    | some d =>
      by_cases hd30 : 30 < d
      · simp only [erc4626Loop, hdc, hd30, if_true] at he
        rcases List.mem_cons.mp he with he | he
        · subst he; rfl
        · exact ih e he
      · by_cases hcv : env.convertOk c (10 ^ d) = true
        · simp only [erc4626Loop, hdc, hd30, if_false, hcv, if_true] at he
          rcases List.mem_cons.mp he with he | he
          · subst he; rfl
          · rcases List.mem_cons.mp he with he | he
            · subst he; rfl
            · simp at he
        · have hcf : env.convertOk c (10 ^ d) = false := by
            cases hv : env.convertOk c (10 ^ d)
            · rfl
            · exact absurd hv hcv
          simp only [erc4626Loop, hdc, hd30, if_false, hcf, Bool.false_eq_true] at he
          rcases List.mem_cons.mp he with he | he
          · subst he; rfl
          · rcases List.mem_cons.mp he with he | he
            · subst he; rfl
            · exact ih e he

theorem erc_convert_shape (env : ChainEnv) :
    ∀ cands a sh, ProbeEvent.convert a sh ∈ (erc4626Loop env cands).2 →
      ∃ d, env.decimalsOf a = some d ∧ d ≤ 30 ∧ sh = 10 ^ d := by
  intro cands
  induction cands with
  | nil => intro a sh h; simp [erc4626Loop] at h
  | cons c rest ih =>
    intro a sh h
    cases hdc : env.decimalsOf c with
    | none =>
      simp only [erc4626Loop, hdc] at h
      rcases List.mem_cons.mp h with h | h
      · exact absurd h (by simp)
      · exact ih a sh h
    | some d =>
      by_cases hd30 : 30 < d
      · simp only [erc4626Loop, hdc, hd30, if_true] at h
        rcases List.mem_cons.mp h with h | h
        · exact absurd h (by simp)
        · exact ih a sh h
      · by_cases hcv : env.convertOk c (10 ^ d) = true
        · simp only [erc4626Loop, hdc, hd30, if_false, hcv, if_true] at h
          rcases List.mem_cons.mp h with h | h
          · exact absurd h (by simp)
          · rcases List.mem_cons.mp h with h | h
            · have ha : a = c ∧ sh = 10 ^ d := by
                constructor
                · exact (ProbeEvent.convert.injEq _ _ _ _).mp h |>.1
                · exact (ProbeEvent.convert.injEq _ _ _ _).mp h |>.2
              obtain ⟨ha1, ha2⟩ := ha
              subst ha1
              exact ⟨d, hdc, by omega, ha2⟩
            · simp at h
        · have hcf : env.convertOk c (10 ^ d) = false := by
            cases hv : env.convertOk c (10 ^ d)
            · rfl
            · exact absurd hv hcv
          simp only [erc4626Loop, hdc, hd30, if_false, hcf, Bool.false_eq_true] at h
          rcases List.mem_cons.mp h with h | h
          · exact absurd h (by simp)
          · rcases List.mem_cons.mp h with h | h
            · have ha : a = c ∧ sh = 10 ^ d := by
                constructor
                · exact (ProbeEvent.convert.injEq _ _ _ _).mp h |>.1
                · exact (ProbeEvent.convert.injEq _ _ _ _).mp h |>.2
              obtain ⟨ha1, ha2⟩ := ha
              subst ha1
              exact ⟨d, hdc, by omega, ha2⟩
            · exact ih a sh h

theorem erc_none_of_allFail (env : ChainEnv) :
    ∀ cands, (∀ c ∈ cands, ∀ d, env.decimalsOf c = some d → d ≤ 30 →
        env.convertOk c (10 ^ d) = false) →
      (erc4626Loop env cands).1 = none := by
  intro cands
  induction cands with
  | nil => intro _; rfl
  | cons c rest ih =>
    intro hall
    cases hdc : env.decimalsOf c with
    | none =>
      simp only [erc4626Loop, hdc]
      exact ih (fun c2 hc2 d hd hd30 => hall c2 (by simp [hc2]) d hd hd30)
    | some d =>
      by_cases hd30 : 30 < d
      · simp only [erc4626Loop, hdc, hd30, if_true]
        exact ih (fun c2 hc2 d2 hd hd302 => hall c2 (by simp [hc2]) d2 hd hd302)
      · have hcf : env.convertOk c (10 ^ d) = false :=
          hall c (by simp) d hdc (by omega)
        simp only [erc4626Loop, hdc, hd30, if_false, hcf, Bool.false_eq_true]
        exact ih (fun c2 hc2 d2 hd hd302 => hall c2 (by simp [hc2]) d2 hd hd302)

theorem erc_some_shape (env : ChainEnv) :
    ∀ cands c sh d tr, erc4626Loop env cands = (some (c, sh, d), tr) →
      env.decimalsOf c = some d ∧ d ≤ 30 ∧ sh = 10 ^ d ∧ env.convertOk c (10 ^ d) = true := by
  intro cands
  induction cands with
  | nil =>
    intro c sh d tr h
    simp only [erc4626Loop, Prod.mk.injEq] at h
    exact absurd h.1 (by simp)
  | cons c2 rest ih =>
    intro c sh d tr h
    cases hdc : env.decimalsOf c2 with
    | none =>
      simp only [erc4626Loop, hdc, Prod.mk.injEq] at h
      exact ih c sh d (erc4626Loop env rest).2 (Prod.ext h.1 rfl)
    | some d2 =>
      by_cases hd30 : 30 < d2
      · simp only [erc4626Loop, hdc, hd30, if_true, Prod.mk.injEq] at h
        exact ih c sh d (erc4626Loop env rest).2 (Prod.ext h.1 rfl)
      · by_cases hcv : env.convertOk c2 (10 ^ d2) = true
        · simp only [erc4626Loop, hdc, hd30, if_false, hcv, if_true, Prod.mk.injEq] at h
          obtain ⟨h1, _⟩ := h
          have hc : c2 = c ∧ (10 ^ d2 = sh ∧ d2 = d) := by
            have := Option.some.inj h1
            exact ⟨congrArg Prod.fst this,
              (Prod.mk.injEq _ _ _ _).mp (congrArg Prod.snd this)⟩
          obtain ⟨rfl, hsh, rfl⟩ := hc
          exact ⟨hdc, by omega, hsh.symm, hcv⟩
        · have hcf : env.convertOk c2 (10 ^ d2) = false := by
            cases hv : env.convertOk c2 (10 ^ d2)
            · rfl
            · exact absurd hv hcv
          simp only [erc4626Loop, hdc, hd30, if_false, hcf, Bool.false_eq_true,
            Prod.mk.injEq] at h
          exact ih c sh d (erc4626Loop env rest).2 (Prod.ext h.1 rfl)

theorem probeCandidates_trace_direct (env : ChainEnv) (fns : List String) :
    ∀ cands, ∀ e ∈ (probeCandidates env fns cands).2, isFallbackEvent e = false := by
  intro cands e he
  obtain ⟨rest, hr⟩ := probeCandidates_trace_pre env fns cands
  have hmem : e ∈ cands.flatMap (fun c => fns.map (ProbeEvent.direct c)) := by
    rw [← hr]
    exact List.mem_append_left _ he
  rw [List.mem_flatMap] at hmem
  obtain ⟨c, _, hm⟩ := hmem
  rw [List.mem_map] at hm
  obtain ⟨fn, _, rfl⟩ := hm
  rfl

/-- C5: the ERC-4626 fallback runs only after every direct candidate and
accessor pair has been probed and failed and the trace then starts with
exactly those direct probes; every convertToAssets probe argument is ten
to an accepted decimals value at most 30; an erc4626-mode result records
such a decimals value and one share; and when no direct pair and no
fallback candidate succeeds, discovery fails with exactly the ordered
candidate address list. -/
theorem C5_fallback_discipline :
    (∀ env input pfn,
      (∃ e ∈ (discoverPriceSource env input pfn).2, isFallbackEvent e = true) →
      (∀ c ∈ candidateAddrs input (resolveMinter env),
        ∀ fn ∈ functionOrderFor pfn env.symbolOf, env.directOk c fn = false) ∧
      ∃ tr2, (discoverPriceSource env input pfn).2 =
        ((candidateAddrs input (resolveMinter env)).flatMap
          (fun c => (functionOrderFor pfn env.symbolOf).map (ProbeEvent.direct c))) ++ tr2) ∧
    (∀ env input pfn a sh,
      ProbeEvent.convert a sh ∈ (discoverPriceSource env input pfn).2 →
      ∃ d, env.decimalsOf a = some d ∧ d ≤ 30 ∧ sh = 10 ^ d) ∧
    (∀ env input pfn,
      (∀ c ∈ candidateAddrs input (resolveMinter env),
        ∀ fn ∈ functionOrderFor pfn env.symbolOf, env.directOk c fn = false) →
      (∀ c ∈ candidateAddrs input (resolveMinter env),
        ∀ d, env.decimalsOf c = some d → d ≤ 30 → env.convertOk c (10 ^ d) = false) →
      (discoverPriceSource env input pfn).1 =
        .error (candidateAddrs input (resolveMinter env))) ∧
    (∀ env input pfn res,
      (discoverPriceSource env input pfn).1 = .ok res → res.mode = "erc4626" →
      ∃ d, res.shareDecimals = some d ∧ d ≤ 30 ∧ res.oneShare = some (10 ^ d) ∧
        env.decimalsOf res.sourceAddress = some d ∧
        env.convertOk res.sourceAddress (10 ^ d) = true) := by
  refine ⟨?_, ?_, ?_, ?_⟩
  · intro env input pfn h
    obtain ⟨e, he, hfb⟩ := h
    cases hpc : probeCandidates env (functionOrderFor pfn env.symbolOf)
        (candidateAddrs input (resolveMinter env)) with
    | mk r1 tr1 =>
      cases r1 with
      | some cf =>
        obtain ⟨cA, fnA⟩ := cf
        have htr : (discoverPriceSource env input pfn).2 = tr1 := by
          simp only [discoverPriceSource, hpc]
        rw [htr] at he
        have := probeCandidates_trace_direct env (functionOrderFor pfn env.symbolOf)
          (candidateAddrs input (resolveMinter env)) e (by rw [hpc]; exact he)
        rw [hfb] at this
        exact Bool.noConfusion this
      | none =>
        obtain ⟨htr1, hall⟩ := probeCandidates_none_full env
          (functionOrderFor pfn env.symbolOf) (candidateAddrs input (resolveMinter env)) tr1 hpc
        refine ⟨hall, ?_⟩
        cases herc : erc4626Loop env (candidateAddrs input (resolveMinter env)) with
        | mk r2 tr2 =>
          cases r2 with
          | some x =>
            obtain ⟨cB, shB, dB⟩ := x
            refine ⟨tr2, ?_⟩
            have : (discoverPriceSource env input pfn).2 = tr1 ++ tr2 := by
              simp only [discoverPriceSource, hpc, herc]
            rw [this, htr1]
          | none =>
            refine ⟨tr2, ?_⟩
            have : (discoverPriceSource env input pfn).2 = tr1 ++ tr2 := by
              simp only [discoverPriceSource, hpc, herc]
            rw [this, htr1]
  · intro env input pfn a sh hmem
    cases hpc : probeCandidates env (functionOrderFor pfn env.symbolOf)
        (candidateAddrs input (resolveMinter env)) with
    | mk r1 tr1 =>
      cases r1 with
      | some cf =>
        obtain ⟨cA, fnA⟩ := cf
        have htr : (discoverPriceSource env input pfn).2 = tr1 := by
          simp only [discoverPriceSource, hpc]
        rw [htr] at hmem
        have := probeCandidates_trace_direct env (functionOrderFor pfn env.symbolOf)
          (candidateAddrs input (resolveMinter env)) _ (by rw [hpc]; exact hmem)
        exact Bool.noConfusion this
      | none =>
        cases herc : erc4626Loop env (candidateAddrs input (resolveMinter env)) with
        | mk r2 tr2 =>
          have htr : (discoverPriceSource env input pfn).2 = tr1 ++ tr2 := by
            cases r2 with
            | some x =>
              obtain ⟨cB, shB, dB⟩ := x
              simp only [discoverPriceSource, hpc, herc]
            | none =>
              simp only [discoverPriceSource, hpc, herc]
          rw [htr] at hmem
          rcases List.mem_append.mp hmem with hmem | hmem
          · have := probeCandidates_trace_direct env (functionOrderFor pfn env.symbolOf)
              (candidateAddrs input (resolveMinter env)) _ (by rw [hpc]; exact hmem)
            exact Bool.noConfusion this
          · exact erc_convert_shape env (candidateAddrs input (resolveMinter env)) a sh
              (by rw [herc]; exact hmem)
  · intro env input pfn hdirect herc
    have hpc := probeCandidates_allFail env (functionOrderFor pfn env.symbolOf)
      (candidateAddrs input (resolveMinter env)) hdirect
    cases hercr : erc4626Loop env (candidateAddrs input (resolveMinter env)) with
    | mk r2 tr2 =>
      have hr2 : r2 = none := by
        have := erc_none_of_allFail env (candidateAddrs input (resolveMinter env)) herc
        rw [hercr] at this
        exact this
      subst hr2
      simp only [discoverPriceSource, hpc, hercr]
  · intro env input pfn res hok hmode
    cases hpc : probeCandidates env (functionOrderFor pfn env.symbolOf)
        (candidateAddrs input (resolveMinter env)) with
    | mk r1 tr1 =>
      cases r1 with
      | some cf =>
        obtain ⟨cA, fnA⟩ := cf
        have : (discoverPriceSource env input pfn).1 = .ok
            { sourceAddress := cA, sourceFunction := fnA, mode := "direct", oneShare := none,
              shareDecimals := none, tokenAddress := input, tokenSymbol := env.symbolOf,
              minterAddress := resolveMinter env } := by
          simp only [discoverPriceSource, hpc]
        rw [this] at hok
        have hres := Except.ok.inj hok
        rw [← hres] at hmode
        have hmode2 : ("direct" : String) = "erc4626" := hmode
        exact absurd hmode2 (by decide)
      | none =>
        cases herc : erc4626Loop env (candidateAddrs input (resolveMinter env)) with
        | mk r2 tr2 =>
          cases r2 with
          | some x =>
            obtain ⟨cB, shB, dB⟩ := x
            have : (discoverPriceSource env input pfn).1 = .ok
                { sourceAddress := cB, sourceFunction := "convertToAssets", mode := "erc4626",
                  oneShare := some shB, shareDecimals := some dB, tokenAddress := input,
                  tokenSymbol := env.symbolOf, minterAddress := resolveMinter env } := by
              simp only [discoverPriceSource, hpc, herc]
            rw [this] at hok
            have hres := Except.ok.inj hok
            obtain ⟨hdec, hd30, hsh, hcv⟩ :=
              erc_some_shape env (candidateAddrs input (resolveMinter env)) cB shB dB tr2 herc
            refine ⟨dB, ?_, hd30, ?_, ?_, ?_⟩
            · rw [← hres]
            · rw [← hres]
              simp [hsh]
            · rw [← hres]
              exact hdec
            · rw [← hres]
              exact hcv
          | none =>
            have : (discoverPriceSource env input pfn).1 =
                .error (candidateAddrs input (resolveMinter env)) := by
              simp only [discoverPriceSource, hpc, herc]
            rw [this] at hok
            exact Except.noConfusion hok

/-- An environment for the C5 witness in which every probe fails. -/
def envAllFail : ChainEnv :=
  { directOk := fun _ _ => false, decimalsOf := fun _ => none, convertOk := fun _ _ => false,
    symbolOf := none, minterCandidate := none, hasCodeAt := fun _ => false }

/-- Witness for C5: with every probe failing, discovery over one input
address fails naming exactly that address. -/
theorem C5_witness :
    (discoverPriceSource envAllFail "0xabc" none).1 = .error ["0xabc"] :=
  C5_fallback_discipline.2.2.1 envAllFail "0xabc" none (by decide)
    (fun c _ d hd _ => Option.noConfusion hd)

/-- Counterexample to C6 as stated: the symbol text bb contains neither
the substring AA nor the substring BB, so the claim prescribes the fixed
default accessor ordering unchanged, yet the code uppercases the symbol
first and returns the BB-prioritized ordering headed by priceBB. -/
theorem C6_counterexample :
    jsIncludes "bb" "AA" = false ∧ jsIncludes "bb" "BB" = false ∧
    preferredFunctionsFromSymbol (some "bb") = PRICE_FUNCTIONS_BB ∧
    PRICE_FUNCTIONS_BB ≠ PRICE_FUNCTIONS_standard ∧
    (preferredFunctionsFromSymbol (some "bb")).head? = some "priceBB" := by decide

/-- C6 amended: an explicit accessor override is the sole candidate;
otherwise the symbol is matched case-insensitively, uppercased before
the substring tests: a symbol containing AA yields the AA ordering
headed by priceAA, else one containing BB yields the BB ordering headed
by priceBB, else the standard ordering; the candidate address list is
the verified minter, when present, before the input address; and the
discovery trace is the direct probes, a prefix of the ordered candidate
by accessor product, followed only by fallback probes. -/
theorem C6_accessor_priority_amended :
    (∀ fn sym, functionOrderFor (some fn) sym = [fn]) ∧
    (∀ sym : String, jsIncludes (jsToUpper sym) "AA" = true →
      preferredFunctionsFromSymbol (some sym) = PRICE_FUNCTIONS_AA ∧
      PRICE_FUNCTIONS_AA.head? = some "priceAA") ∧
    (∀ sym : String, jsIncludes (jsToUpper sym) "AA" = false →
      jsIncludes (jsToUpper sym) "BB" = true →
      preferredFunctionsFromSymbol (some sym) = PRICE_FUNCTIONS_BB ∧
      PRICE_FUNCTIONS_BB.head? = some "priceBB") ∧
    (∀ sym : String, jsIncludes (jsToUpper sym) "AA" = false →
      jsIncludes (jsToUpper sym) "BB" = false →
      preferredFunctionsFromSymbol (some sym) = PRICE_FUNCTIONS_standard) ∧
    (∀ input m, candidateAddrs input (some m) = [m, input] ∧
      candidateAddrs input none = [input]) ∧
    (∀ env input pfn, ∃ tr2 tr3,
      (discoverPriceSource env input pfn).2 = tr2 ++ tr3 ∧
      (∀ e ∈ tr2, isFallbackEvent e = false) ∧
      (∀ e ∈ tr3, isFallbackEvent e = true) ∧
      ∃ rest, tr2 ++ rest =
        (candidateAddrs input (resolveMinter env)).flatMap
          (fun c => (functionOrderFor pfn env.symbolOf).map (ProbeEvent.direct c))) := by
  refine ⟨fun fn sym => rfl, ?_, ?_, ?_, fun input m => ⟨rfl, rfl⟩, ?_⟩
  · intro sym h
    have hne : ¬ sym = "" := by
      intro he
      subst he
      exact absurd h (by decide)
    simp only [preferredFunctionsFromSymbol]
    rw [if_neg hne, if_pos h]
    exact ⟨rfl, rfl⟩
  · intro sym hAA hBB
    have hne : ¬ sym = "" := by
      intro he
      subst he
      exact absurd hBB (by decide)
    simp only [preferredFunctionsFromSymbol]
    rw [if_neg hne, if_neg (by simp [hAA]), if_pos hBB]
    exact ⟨rfl, rfl⟩
  · intro sym hAA hBB
    by_cases hne : sym = ""
    · subst hne
      rfl
    · simp only [preferredFunctionsFromSymbol]
      rw [if_neg hne, if_neg (by simp [hAA]), if_neg (by simp [hBB])]
  · intro env input pfn
    cases hpc : probeCandidates env (functionOrderFor pfn env.symbolOf)
        (candidateAddrs input (resolveMinter env)) with
    | mk r1 tr1 =>
      have hdirect : ∀ e ∈ tr1, isFallbackEvent e = false := by
        intro e he
        exact probeCandidates_trace_direct env (functionOrderFor pfn env.symbolOf)
          (candidateAddrs input (resolveMinter env)) e (by rw [hpc]; exact he)
      have hpre : ∃ rest, tr1 ++ rest =
          (candidateAddrs input (resolveMinter env)).flatMap
            (fun c => (functionOrderFor pfn env.symbolOf).map (ProbeEvent.direct c)) := by
        obtain ⟨rest, hr⟩ := probeCandidates_trace_pre env (functionOrderFor pfn env.symbolOf)
          (candidateAddrs input (resolveMinter env))
        rw [hpc] at hr
        exact ⟨rest, hr⟩
      cases r1 with
      | some cf =>
        obtain ⟨cA, fnA⟩ := cf
        refine ⟨tr1, [], ?_, hdirect, by simp, hpre⟩
        simp only [discoverPriceSource, hpc]
        simp
      | none =>
        cases herc : erc4626Loop env (candidateAddrs input (resolveMinter env)) with
        | mk r2 tr2 =>
          have hfall : ∀ e ∈ tr2, isFallbackEvent e = true := by
            intro e he
            exact erc_trace_fallback env (candidateAddrs input (resolveMinter env)) e
              (by rw [herc]; exact he)
          cases r2 with
          | some x =>
            obtain ⟨cB, shB, dB⟩ := x
            refine ⟨tr1, tr2, ?_, hdirect, hfall, hpre⟩
            simp only [discoverPriceSource, hpc, herc]
          | none =>
            refine ⟨tr1, tr2, ?_, hdirect, hfall, hpre⟩
            simp only [discoverPriceSource, hpc, herc]

/-- Witness for C6: an AA symbol takes the AA ordering, a lowercase bb
symbol the BB ordering, and an explicit override is the sole accessor. -/
theorem C6_witness :
    preferredFunctionsFromSymbol (some "AA Tranche") = PRICE_FUNCTIONS_AA ∧
    preferredFunctionsFromSymbol (some "junior bb") = PRICE_FUNCTIONS_BB ∧
    functionOrderFor (some "getPrice") none = ["getPrice"] :=
  ⟨(C6_accessor_priority_amended.2.1 "AA Tranche" (by decide)).1,
   (C6_accessor_priority_amended.2.2.1 "junior bb" (by decide) (by decide)).1,
   C6_accessor_priority_amended.1 "getPrice" none⟩

/-! Lemmas about the sampling loop. -/

/-- The delta relation the claims speak about between two consecutive
emitted rows. -/
def deltaRel : Row → Row → Prop := fun a b => b.delta = (b.price : Int) - (a.price : Int)

/-- Strictly increasing day indices between consecutive emitted rows. -/
def dayLt : Row → Row → Prop := fun a b => a.day < b.day

instance : IsTrans Row dayLt := ⟨fun _ _ _ h1 h2 => Nat.lt_trans h1 h2⟩

/-- The bookkeeping invariant tying every accumulator of the loop state
to the emitted rows list. -/
structure SampleInv (cd : ChainData) (st : LoopState) : Prop where
  obsLen : st.observations = st.rows.length
  lastD : st.lastDate = st.rows.getLast?.map Row.day
  prevP : st.prevPrice = st.rows.getLast?.map Row.price
  lastP : st.lastPrice = st.rows.getLast?.map Row.price
  lastT : st.lastTs = st.rows.getLast?.map (fun r => cd.ts r.block)
  firstT : st.firstTs = st.rows.head?.map (fun r => cd.ts r.block)
  firstP : st.firstPrice = st.rows.head?.map Row.price
  firstDelta : ∀ r, st.rows.head? = some r → r.delta = 0
  deltaChain : List.Chain' deltaRel st.rows

theorem initState_inv (cd : ChainData) : SampleInv cd initState := by
  refine ⟨rfl, rfl, rfl, rfl, rfl, rfl, rfl, ?_, List.chain'_nil⟩
  intro r hr
  exact Option.noConfusion hr

theorem sampleStep_inv (cd : ChainData) (st : LoopState) (block : Nat)
    (h : SampleInv cd st) : SampleInv cd (sampleStep cd st block) := by
  by_cases hd : st.lastDate = some (dayOf (cd.ts block))
  · rw [sampleStep, if_pos hd]
    exact h
  · rw [sampleStep, if_neg hd]
    constructor
    · rw [List.length_append, h.obsLen]
      rfl
    · rw [List.getLast?_concat]
      rfl
    · rw [List.getLast?_concat]
      rfl
    · rw [List.getLast?_concat]
      rfl
    · rw [List.getLast?_concat]
      rfl
    · cases hrows : st.rows with
      | nil =>
        have h0 : st.firstTs = none := by rw [h.firstT, hrows]; rfl
        rw [h0]
        rfl
      | cons a l =>
        have h0 : st.firstTs = some (cd.ts a.block) := by rw [h.firstT, hrows]; rfl
        rw [h0]
        rfl
    · cases hrows : st.rows with
      | nil =>
        have h0 : st.firstPrice = none := by rw [h.firstP, hrows]; rfl
        rw [h0]
        rfl
      | cons a l =>
        have h0 : st.firstPrice = some a.price := by rw [h.firstP, hrows]; rfl
        rw [h0]
        rfl
    · intro r2 hr2
      cases hrows : st.rows with
      | nil =>
        rw [hrows] at hr2
        have hr2r : r2 = ⟨dayOf (cd.ts block), block, cd.price block,
            deltaOfPrev st.prevPrice (cd.price block)⟩ := by
          simpa using hr2.symm
        have hprev : st.prevPrice = none := by rw [h.prevP, hrows]; rfl
        rw [hr2r]
        simp [deltaOfPrev, hprev]
      | cons a l =>
        rw [hrows] at hr2
        have hr2a : r2 = a := by simpa using hr2.symm
        rw [hr2a]
        exact h.firstDelta a (by rw [hrows]; rfl)
    · apply List.chain'_append.mpr
      refine ⟨h.deltaChain, List.chain'_singleton _, ?_⟩
      intro x hx y hy
      have hxl : st.rows.getLast? = some x := by simpa using hx
      have hyr : y = ⟨dayOf (cd.ts block), block, cd.price block,
          deltaOfPrev st.prevPrice (cd.price block)⟩ := by
        have h9 := hy
        simp at h9
        exact h9.symm
      have hprev : st.prevPrice = some x.price := by rw [h.prevP, hxl]; rfl
      rw [hyr]
      show deltaOfPrev st.prevPrice (cd.price block) = ((cd.price block : Int)) - (x.price : Int)
      rw [hprev]
      rfl

theorem runLoopGo_inv (cd : ChainData) (pol : Policy) (endB : Nat) :
    ∀ fuel block st, SampleInv cd st →
      SampleInv cd (runLoopGo cd pol endB fuel block st) := by
  intro fuel
  induction fuel with
  | zero => intro block st h; exact h
  | succ fuel ih =>
    intro block st h
    by_cases hb : block ≤ endB
    · cases pol with
      | step k =>
        simp only [runLoopGo, if_pos hb]
        by_cases hbe : block = endB
        · rw [if_pos hbe]
          exact sampleStep_inv cd st block h
        · rw [if_neg hbe]
          by_cases hnb : min (block + k) endB ≤ block
          · rw [if_pos hnb]
            exact sampleStep_inv cd st block h
          · rw [if_neg hnb]
            exact ih _ _ (sampleStep_inv cd st block h)
      | daily =>
        simp only [runLoopGo, if_pos hb]
        by_cases hnb : getBlockByTime cd.ts (cd.ts block + 24 * 3600) (block + 1) endB ≤ block
        · rw [if_pos hnb]
          exact sampleStep_inv cd st block h
        · rw [if_neg hnb]
          exact ih _ _ (sampleStep_inv cd st block h)
    · cases pol with
      | step k =>
        simp only [runLoopGo, if_neg hb]
        exact h
      | daily =>
        simp only [runLoopGo, if_neg hb]
        exact h

/-- The last emitted day is at most the day of the given block. -/
def LastDayLe (cd : ChainData) (st : LoopState) (block : Nat) : Prop :=
  ∀ r, st.rows.getLast? = some r → r.day ≤ dayOf (cd.ts block)

theorem sampleStep_day (cd : ChainData) (st : LoopState) (block : Nat)
    (h : SampleInv cd st) (hchain : List.Chain' dayLt st.rows)
    (hle : LastDayLe cd st block) :
    List.Chain' dayLt (sampleStep cd st block).rows ∧
      LastDayLe cd (sampleStep cd st block) block := by
  by_cases hd : st.lastDate = some (dayOf (cd.ts block))
  · rw [sampleStep, if_pos hd]
    exact ⟨hchain, hle⟩
  · rw [sampleStep, if_neg hd]
    constructor
    · apply List.chain'_append.mpr
      refine ⟨hchain, List.chain'_singleton _, ?_⟩
      intro x hx y hy
      have hxl : st.rows.getLast? = some x := by simpa using hx
      have hyr : y = ⟨dayOf (cd.ts block), block, cd.price block,
          deltaOfPrev st.prevPrice (cd.price block)⟩ := by
        have h9 := hy
        simp at h9
        exact h9.symm
      have h1 : x.day ≤ dayOf (cd.ts block) := hle x hxl
      have h2 : x.day ≠ dayOf (cd.ts block) := by
        intro he
        apply hd
        rw [h.lastD, hxl]
        simp [he]
      rw [hyr]
      show x.day < dayOf (cd.ts block)
      omega
    · intro r2 hr2
      rw [List.getLast?_concat] at hr2
      have : r2 = ⟨dayOf (cd.ts block), block, cd.price block,
          deltaOfPrev st.prevPrice (cd.price block)⟩ := by simpa using hr2.symm
      rw [this]

theorem lastDayLe_mono (cd : ChainData) (st : LoopState)
    (hmono : ∀ a b, a ≤ b → cd.ts a ≤ cd.ts b) {b1 b2 : Nat} (hb : b1 ≤ b2)
    (h : LastDayLe cd st b1) : LastDayLe cd st b2 := by
  intro r hr
  exact le_trans (h r hr) (Nat.div_le_div_right (hmono b1 b2 hb))

theorem runLoopGo_day (cd : ChainData) (pol : Policy) (endB : Nat)
    (hmono : ∀ a b, a ≤ b → cd.ts a ≤ cd.ts b) :
    ∀ fuel block st, SampleInv cd st → List.Chain' dayLt st.rows →
      LastDayLe cd st block →
      List.Chain' dayLt (runLoopGo cd pol endB fuel block st).rows := by
  intro fuel
  induction fuel with
  | zero => intro block st _ hchain _; exact hchain
  | succ fuel ih =>
    intro block st h hchain hle
    by_cases hb : block ≤ endB
    · obtain ⟨hchain2, hle2⟩ := sampleStep_day cd st block h hchain hle
      have hinv2 := sampleStep_inv cd st block h
      cases pol with
      | step k =>
        simp only [runLoopGo, if_pos hb]
        by_cases hbe : block = endB
        · rw [if_pos hbe]
          exact hchain2
        · rw [if_neg hbe]
          by_cases hnb : min (block + k) endB ≤ block
          · rw [if_pos hnb]
            exact hchain2
          · rw [if_neg hnb]
            exact ih _ _ hinv2 hchain2
              (lastDayLe_mono cd _ hmono (by omega) hle2)
      | daily =>
        simp only [runLoopGo, if_pos hb]
        by_cases hnb : getBlockByTime cd.ts (cd.ts block + 24 * 3600) (block + 1) endB ≤ block
        · rw [if_pos hnb]
          exact hchain2
        · rw [if_neg hnb]
          exact ih _ _ hinv2 hchain2
            (lastDayLe_mono cd _ hmono (by omega) hle2)
    · cases pol with
      | step k =>
        simp only [runLoopGo, if_neg hb]
        exact hchain
      | daily =>
        simp only [runLoopGo, if_neg hb]
        exact hchain

/-- C7: under non-decreasing timestamps the emitted rows carry pairwise
distinct calendar days, so at most one observation per day; in every run
the first emitted row has delta zero and every later row's delta is its
price minus the previously emitted price; and a single-block range
yields exactly one observation with delta zero under either policy. -/
theorem C7_daily_dedup_delta :
    (∀ (cd : ChainData) (pol : Policy) (endB startB : Nat),
      (∀ a b, a ≤ b → cd.ts a ≤ cd.ts b) →
      (runLoop cd pol endB startB initState).rows.Pairwise (fun a b => a.day ≠ b.day)) ∧
    (∀ (cd : ChainData) (pol : Policy) (endB startB : Nat),
      (∀ r, (runLoop cd pol endB startB initState).rows.head? = some r → r.delta = 0) ∧
      List.Chain' deltaRel (runLoop cd pol endB startB initState).rows) ∧
    (∀ (cd : ChainData) (pol : Policy) (B : Nat),
      (runLoop cd pol B B initState).rows = [⟨dayOf (cd.ts B), B, cd.price B, 0⟩] ∧
      (runLoop cd pol B B initState).observations = 1) := by
  refine ⟨?_, ?_, ?_⟩
  · intro cd pol endB startB hmono
    have hchain : List.Chain' dayLt (runLoop cd pol endB startB initState).rows := by
      rw [runLoop]
      exact runLoopGo_day cd pol endB hmono _ startB initState (initState_inv cd)
        List.chain'_nil (fun r hr => Option.noConfusion hr)
    have hpair : (runLoop cd pol endB startB initState).rows.Pairwise dayLt :=
      List.chain'_iff_pairwise.mp hchain
    exact hpair.imp (fun hab => Nat.ne_of_lt hab)
  · intro cd pol endB startB
    have hinv : SampleInv cd (runLoop cd pol endB startB initState) := by
      rw [runLoop]
      exact runLoopGo_inv cd pol endB _ startB initState (initState_inv cd)
    exact ⟨hinv.firstDelta, hinv.deltaChain⟩
  · intro cd pol B
    have hfuel : B + 1 - B = 1 := by omega
    rw [runLoop, hfuel]
    have hstep : sampleStep cd initState B =
        { lastDate := some (dayOf (cd.ts B))
          prevPrice := some (cd.price B)
          rows := [⟨dayOf (cd.ts B), B, cd.price B, 0⟩]
          firstTs := some (cd.ts B)
          lastTs := some (cd.ts B)
          firstPrice := some (cd.price B)
          lastPrice := some (cd.price B)
          observations := 1
          peakPrice := some (cd.price B)
          maxDrawdown := drawdownOf (cd.price B) (cd.price B) 0
          returns := [] } := by
      rw [sampleStep, if_neg (by simp [initState])]
      rfl
    cases pol with
    | step k =>
      have hrun : runLoopGo cd (.step k) B 1 B initState = sampleStep cd initState B := by
        simp only [runLoopGo]
        simp
      rw [hrun, hstep]
      exact ⟨rfl, rfl⟩
    | daily =>
      have hnb : getBlockByTime cd.ts (cd.ts B + 24 * 3600) (B + 1) B = B + 1 := by
        rw [getBlockByTime]
        rw [show B - (B + 1) = 0 from by omega]
        rfl
      have hrun : runLoopGo cd .daily B 1 B initState = sampleStep cd initState B := by
        simp only [runLoopGo, hnb]
        rw [if_pos (le_refl B), if_neg (by omega : ¬ B + 1 ≤ B)]
      rw [hrun, hstep]
      exact ⟨rfl, rfl⟩

/-- Chain data for the C7 witness: the timestamp equals the block
number. -/
def cdBlocks : ChainData := ⟨fun b => b, fun b => b⟩

/-- Witness for C7: a monotone chain gives pairwise distinct emitted
days, and the single-block run at block 5 gives one row with delta 0. -/
theorem C7_witness :
    (runLoop cdBlocks .daily 9 7 initState).rows.Pairwise (fun a b => a.day ≠ b.day) ∧
    (runLoop cdBlocks .daily 5 5 initState).rows = [⟨0, 5, 5, 0⟩] ∧
    (runLoop cdBlocks .daily 5 5 initState).observations = 1 := by
  refine ⟨C7_daily_dedup_delta.1 cdBlocks .daily 9 7 (fun a b h => h), ?_,
    (C7_daily_dedup_delta.2.2 cdBlocks .daily 5).2⟩
  have h := (C7_daily_dedup_delta.2.2 cdBlocks .daily 5).1
  rw [h]
  rfl

/-- C9: at the end of a run with at least one emitted observation the
summary day count is max 1 of the half-up-rounded elapsed days between
the first and last emitted timestamps, the missing day count is max 0 of
days plus one minus the observation count, and the total return and the
APR, represented by its base and exponent, are present with exactly the
claimed formulas when both boundary prices are positive, and reported
unavailable otherwise. -/
theorem C9_summary_formulas (cd : ChainData) (pol : Policy) (endB startB : Nat)
    (st : LoopState) (hst : st = runLoop cd pol endB startB initState)
    (hobs : 1 ≤ st.observations) :
    ∃ ft lt2 fp lp, st.firstTs = some ft ∧ st.lastTs = some lt2 ∧
      st.firstPrice = some fp ∧ st.lastPrice = some lp ∧
      (mkSummary st).days = max 1 (jsRound (((lt2 : ℚ) - (ft : ℚ)) / 86400)) ∧
      0 < (mkSummary st).days ∧
      (mkSummary st).missingDays =
        max 0 ((mkSummary st).days + 1 - (st.observations : Int)) ∧
      (0 < fp ∧ 0 < lp →
        (mkSummary st).totalReturnPct = some ((((lp : ℚ) - (fp : ℚ)) / (fp : ℚ)) * 100) ∧
        (mkSummary st).apr = AprReport.computed ((lp : ℚ) / (fp : ℚ)) (mkSummary st).days) ∧
      (¬ (0 < fp ∧ 0 < lp) →
        (mkSummary st).totalReturnPct = none ∧
        (mkSummary st).apr = AprReport.unavailable) := by
  have hinv : SampleInv cd st := by
    rw [hst, runLoop]
    exact runLoopGo_inv cd pol endB _ startB initState (initState_inv cd)
  have hlen : 1 ≤ st.rows.length := by
    rw [← hinv.obsLen]
    exact hobs
  have hne : st.rows ≠ [] := by
    intro h0
    rw [h0] at hlen
    simp at hlen
  obtain ⟨r0, hr0⟩ : ∃ r0, st.rows.head? = some r0 := by
    cases hrows : st.rows with
    | nil => exact absurd hrows hne
    | cons a l => exact ⟨a, rfl⟩
  obtain ⟨rl, hrl⟩ : ∃ rl, st.rows.getLast? = some rl :=
    Option.isSome_iff_exists.mp (List.getLast?_isSome.mpr hne)
  have hft : st.firstTs = some (cd.ts r0.block) := by rw [hinv.firstT, hr0]; rfl
  have hlt : st.lastTs = some (cd.ts rl.block) := by rw [hinv.lastT, hrl]; rfl
  have hfp : st.firstPrice = some r0.price := by rw [hinv.firstP, hr0]; rfl
  have hlp : st.lastPrice = some rl.price := by rw [hinv.lastP, hrl]; rfl
  have hDpos : (0 : Int) <
      max 1 (jsRound (((cd.ts rl.block : ℚ) - (cd.ts r0.block : ℚ)) / 86400)) :=
    lt_of_lt_of_le zero_lt_one (le_max_left _ _)
  have hdays : (mkSummary st).days =
      max 1 (jsRound (((cd.ts rl.block : ℚ) - (cd.ts r0.block : ℚ)) / 86400)) := by
    simp only [mkSummary, hft, hlt, hfp, hlp]
    split <;> rfl
  refine ⟨cd.ts r0.block, cd.ts rl.block, r0.price, rl.price, hft, hlt, hfp, hlp,
    hdays, by rw [hdays]; exact hDpos, ?_, ?_, ?_⟩
  · rw [hdays]
    simp only [mkSummary, hft, hlt, hfp, hlp]
    split <;> simp only [if_pos hDpos]
  · intro hguard
    constructor
    · simp only [mkSummary, hft, hlt, hfp, hlp]
      rw [if_pos ⟨hguard.1, hguard.2, hDpos⟩]
    · rw [hdays]
      simp only [mkSummary, hft, hlt, hfp, hlp]
      rw [if_pos ⟨hguard.1, hguard.2, hDpos⟩]
  · intro hguard
    constructor
    · simp only [mkSummary, hft, hlt, hfp, hlp]
      rw [if_neg (fun hcon => hguard ⟨hcon.1, hcon.2.1⟩)]
    · simp only [mkSummary, hft, hlt, hfp, hlp]
      rw [if_neg (fun hcon => hguard ⟨hcon.1, hcon.2.1⟩)]

/-- Chain data for the C9 witness: one block per calendar day, constant
price 100. -/
def cdDaily : ChainData := ⟨fun b => 86400 * b, fun _ => 100⟩

/-- Witness for C9: a two-observation run over blocks 0 and 1 one day
apart with constant positive price has day count 1, no missing days and
zero total return. -/
theorem C9_witness :
    1 ≤ (runLoop cdDaily (.step 1) 1 0 initState).observations ∧
    (mkSummary (runLoop cdDaily (.step 1) 1 0 initState)).days = 1 ∧
    (mkSummary (runLoop cdDaily (.step 1) 1 0 initState)).missingDays = 0 ∧
    (mkSummary (runLoop cdDaily (.step 1) 1 0 initState)).totalReturnPct = some 0 := by
  have hobs : 1 ≤ (runLoop cdDaily (.step 1) 1 0 initState).observations := by decide
  obtain ⟨ft, lt2, fp, lp, hft, hlt, hfp, hlp, hdays, hpos, hmiss, hgpos, _⟩ :=
    C9_summary_formulas cdDaily (.step 1) 1 0 _ rfl hobs
  have hft0 : ft = 0 :=
    (Option.some.inj (((by decide : (runLoop cdDaily (.step 1) 1 0 initState).firstTs =
      some 0)).symm.trans hft)).symm
  have hlt0 : lt2 = 86400 :=
    (Option.some.inj (((by decide : (runLoop cdDaily (.step 1) 1 0 initState).lastTs =
      some 86400)).symm.trans hlt)).symm
  have hfp0 : fp = 100 :=
    (Option.some.inj (((by decide : (runLoop cdDaily (.step 1) 1 0 initState).firstPrice =
      some 100)).symm.trans hfp)).symm
  have hlp0 : lp = 100 :=
    (Option.some.inj (((by decide : (runLoop cdDaily (.step 1) 1 0 initState).lastPrice =
      some 100)).symm.trans hlp)).symm
  subst hft0 hlt0 hfp0 hlp0
  have hdays1 : (mkSummary (runLoop cdDaily (.step 1) 1 0 initState)).days = 1 := by
    rw [hdays]
    have h1 : (((86400 : Nat) : ℚ) - ((0 : Nat) : ℚ)) / 86400 = 1 := by norm_num
    rw [h1]
    have h2 : jsRound 1 = 1 := by norm_num [jsRound, Rat.floor]
    rw [h2]
    decide
  refine ⟨hobs, hdays1, ?_, ?_⟩
  · rw [hmiss, hdays1]
    have hobs2 : (runLoop cdDaily (.step 1) 1 0 initState).observations = 2 := by decide
    rw [hobs2]
    decide
  · rw [(hgpos (by decide)).1]
    norm_num

end Backfill
